import Mathlib

/-!
Verification development for `scripts/make_help.py`, a utility that scans
Makefiles for comment lines of the form `## group:command:description` and
prints a grouped help listing.

Text is modelled as `List Char` (Python `str`), so that every operation is
executable and kernel-reducible.  The Python functions `parse_makefile`,
`create_help` and `print_help` are embedded as Lean functions of the same
names; Python's ordered `dict`/`defaultdict(list)` becomes an association
list with unique keys, modified at the first matching key and extended at
the end for fresh keys.  File I/O is modelled by `FileInput`: either the
open fails (`FileNotFoundError`), or a sequence of lines is read
successfully, optionally followed by a read error that aborts the loop
(the generic `except Exception` path).  Diagnostics printed by
`parse_makefile` are returned as a list of message strings.
-/

namespace MakeHelp

/-- Python `str`, modelled as a list of characters. -/
abbrev Str := List Char

/-- A help entry: `(command, description)`. -/
abbrev Entry := Str × Str

/-- The help table: an insertion-ordered mapping from group name to the
list of entries of that group, as Python's `dict` of lists. -/
abbrev HelpTable := List (Str × List Entry)

/-- Python `str.strip()` with no argument: remove leading and trailing
whitespace. -/
def pyStrip (s : Str) : Str :=
  ((s.dropWhile Char.isWhitespace).reverse.dropWhile Char.isWhitespace).reverse

/-- Python `line.startswith("## ")`. -/
def hasMarker : Str → Bool
  | '#' :: '#' :: ' ' :: _ => true
  | _ => false

/-- Python `line.lstrip("## ")`: removes ALL leading characters drawn from
the set `\x7b'#', ' '\x7d`, not merely the three-character marker. -/
def pyLstrip (s : Str) : Str :=
  s.dropWhile (fun c => c == '#' || c == ' ')

/-- Split a string at its first `':'`, returning the part before and the
part after; `none` when the string has no colon.  This is the elementary
step of Python `str.split(":", maxsplit)`. -/
def splitFirst : Str → Option (Str × Str)
  | [] => none
  | c :: cs =>
    if c = ':' then some ([], cs)
    else (splitFirst cs).map (fun p => (c :: p.1, p.2))

/-- Python `s.split(":", 2)`: at most two splits, so at most three parts;
the third part keeps any further colons verbatim. -/
def splitMax2 (s : Str) : List Str :=
  match splitFirst s with
  | none => [s]
  | some (a, r) =>
    match splitFirst r with
    | none => [a, r]
    | some (b, rem) => [a, b, rem]

/-- The per-line parsing of `parse_makefile`'s loop body: strip the line;
skip it unless it starts with `"## "`; apply `lstrip("## ")` and
`split(":", 2)`; require exactly three parts; strip each part.  Returns
`some (group, command, description)` exactly when the line contributes an
entry.  (The `except ValueError` handler in the source is unreachable:
the length test `continue`s before the three-way unpacking could fail, and
no other statement in the guarded block raises `ValueError`.) -/
def parseLine (line : Str) : Option (Str × Str × Str) :=
  let l := pyStrip line
  if hasMarker l then
    match splitMax2 (pyLstrip l) with
    | [g, c, d] => some (pyStrip g, pyStrip c, pyStrip d)
    | _ => none
  else none

/-- `result[group].append(e)` / `result[group].extend(es)` on an ordered
dict of lists: append to the (unique) existing key, or install the key at
the end of the insertion order. -/
def addGroup : HelpTable → Str → List Entry → HelpTable
  | [], g, es => [(g, es)]
  | p :: t, g, es =>
    if p.1 = g then (p.1, p.2 ++ es) :: t else p :: addGroup t g es

/-- One iteration of the line loop of `parse_makefile`. -/
def lineStep (t : HelpTable) (line : Str) : HelpTable :=
  match parseLine line with
  | some (g, c, d) => addGroup t g [(c, d)]
  | none => t

/-- The table accumulated by `parse_makefile` over a list of lines. -/
def parseLines (lines : List Str) : HelpTable :=
  lines.foldl lineStep []

/-- The observable behaviour of opening and reading one file:
either the open raises `FileNotFoundError`, or some lines are read in
order, optionally followed by an exception (message `e`) that aborts the
read loop. -/
inductive FileInput where
  | notFound : FileInput
  | content (lines : List Str) (readErr : Option Str) : FileInput
deriving DecidableEq

/-- The lines successfully delivered by the file iterator. -/
def linesRead : FileInput → List Str
  | .notFound => []
  | .content lines _ => lines

/-- Diagnostic printed on `FileNotFoundError`. -/
def notFoundMsg (file : Str) : Str :=
  "Error: Could not find Makefile: ".data ++ file

/-- Diagnostic printed on any other exception while processing a file. -/
def processErrMsg (file e : Str) : Str :=
  "Error processing ".data ++ file ++ ": ".data ++ e

/-- `parse_makefile(file)`: returns the table built from the lines that
were read, together with the list of diagnostics printed.  On
`FileNotFoundError` nothing was parsed; on a later read error the entries
parsed before the exception are kept, because `result` is initialised
before the `try` block and returned after the handlers. -/
def parse_makefile (file : Str) : FileInput → HelpTable × List Str
  | .notFound => ([], [notFoundMsg file])
  | .content lines readErr =>
    (parseLines lines,
      match readErr with
      | some e => [processErrMsg file e]
      | none => [])

/-- A file as supplied to `create_help`: its path plus the behaviour of
reading it. -/
abbrev MFile := Str × FileInput

/-- `result[group].extend(targets)` over all items of a parsed table, in
its insertion order: the merge step of `create_help`. -/
def mergeTables (t1 t2 : HelpTable) : HelpTable :=
  t2.foldl (fun acc p => addGroup acc p.1 p.2) t1

/-- `create_help(files)`: parse each file in order and merge the
per-file tables into one. -/
def create_help (files : List MFile) : HelpTable :=
  files.foldl (fun acc f => mergeTables acc (parse_makefile f.1 f.2).1) []

/-- The group keys of a table, in insertion order. -/
def keys (t : HelpTable) : List Str :=
  t.map Prod.fst

/-- Key uniqueness, the defining invariant of a Python `dict`. -/
def NodupKeys (t : HelpTable) : Prop :=
  (keys t).Nodup

/-- All entries recorded under group `g`, joining every pair whose key is
`g` (on tables with unique keys this is the single list bound to `g`, or
`[]` when `g` is absent). -/
def entsOf : HelpTable → Str → List Entry
  | [], _ => []
  | p :: t, g => (if p.1 = g then p.2 else []) ++ entsOf t g

/-- The entry a given line contributes to group `g`, if any. -/
def pickEntry (g line : Str) : Option Entry :=
  match parseLine line with
  | some (g', c, d) => if g' = g then some (c, d) else none
  | none => none

@[simp] theorem keys_nil : keys [] = [] := rfl

@[simp] theorem keys_cons (p : Str × List Entry) (t : HelpTable) :
    keys (p :: t) = p.1 :: keys t := rfl

@[simp] theorem entsOf_nil (g : Str) : entsOf [] g = [] := rfl

theorem entsOf_cons (p : Str × List Entry) (t : HelpTable) (g : Str) :
    entsOf (p :: t) g = (if p.1 = g then p.2 else []) ++ entsOf t g := rfl

theorem entsOf_eq_nil {t : HelpTable} {g : Str} (h : g ∉ keys t) :
    entsOf t g = [] := by
  induction t with
  | nil => rfl
  | cons p t ih =>
    simp only [keys_cons, List.mem_cons, not_or] at h
    rw [entsOf_cons, if_neg (fun hpg => h.1 hpg.symm), ih h.2, List.nil_append]

theorem mem_keys_of_entsOf_ne_nil {t : HelpTable} {g : Str}
    (h : entsOf t g ≠ []) : g ∈ keys t := by
  by_contra hg
  exact h (entsOf_eq_nil hg)

theorem keys_addGroup (t : HelpTable) (g : Str) (es : List Entry) :
    keys (addGroup t g es) = if g ∈ keys t then keys t else keys t ++ [g] := by
  induction t with
  | nil => simp [addGroup]
  | cons p t ih =>
    by_cases hpg : p.1 = g
    · simp [addGroup, hpg]
    · have hgp : ¬ g = p.1 := fun h => hpg h.symm
      by_cases hmem : g ∈ keys t <;>
        simp [addGroup, hpg, hgp, hmem, ih]

theorem nodupKeys_addGroup {t : HelpTable} (g : Str) (es : List Entry)
    (h : NodupKeys t) : NodupKeys (addGroup t g es) := by
  unfold NodupKeys at *
  rw [keys_addGroup]
  by_cases hmem : g ∈ keys t
  · simpa [hmem] using h
  · rw [if_neg hmem]
    refine h.append (List.nodup_singleton g) (fun a ha hb => ?_)
    have : a = g := by simpa using hb
    exact hmem (this ▸ ha)

theorem entsOf_addGroup {t : HelpTable} (g : Str) (es : List Entry)
    (hn : NodupKeys t) (g' : Str) :
    entsOf (addGroup t g es) g' =
      entsOf t g' ++ (if g = g' then es else []) := by
  induction t with
  | nil =>
    by_cases h : g = g' <;> simp [addGroup, entsOf, h]
  | cons p t ih =>
    have hn' : NodupKeys t := (List.nodup_cons.mp hn).2
    have hp : p.1 ∉ keys t := (List.nodup_cons.mp hn).1
    by_cases hpg : p.1 = g
    · subst hpg
      rw [show addGroup (p :: t) p.1 es = (p.1, p.2 ++ es) :: t by
        simp [addGroup]]
      by_cases h' : p.1 = g'
      · subst h'
        rw [entsOf_cons, entsOf_cons, if_pos rfl, if_pos rfl, if_pos rfl,
          entsOf_eq_nil hp]
        simp
      · rw [entsOf_cons, entsOf_cons, if_neg h', if_neg h', if_neg
          (fun h => h' h)]
        simp
    · rw [show addGroup (p :: t) g es = p :: addGroup t g es by
        simp [addGroup, hpg]]
      rw [entsOf_cons, entsOf_cons, ih hn', List.append_assoc]

theorem mergeTables_nil (a : HelpTable) : mergeTables a [] = a := rfl

theorem mergeTables_cons (a : HelpTable) (p : Str × List Entry)
    (b : HelpTable) :
    mergeTables a (p :: b) = mergeTables (addGroup a p.1 p.2) b := rfl

theorem nodupKeys_mergeTables {a : HelpTable} (b : HelpTable)
    (h : NodupKeys a) : NodupKeys (mergeTables a b) := by
  induction b generalizing a with
  | nil => exact h
  | cons p b ih => exact ih (nodupKeys_addGroup p.1 p.2 h)

theorem entsOf_mergeTables {a : HelpTable} (b : HelpTable)
    (h : NodupKeys a) (g : Str) :
    entsOf (mergeTables a b) g = entsOf a g ++ entsOf b g := by
  induction b generalizing a with
  | nil => simp [mergeTables_nil]
  | cons p b ih =>
    rw [mergeTables_cons, ih (nodupKeys_addGroup p.1 p.2 h),
      entsOf_addGroup p.1 p.2 h, entsOf_cons, List.append_assoc]

theorem keys_mergeTables (a : HelpTable) {b : HelpTable}
    (hb : NodupKeys b) :
    keys (mergeTables a b) =
      keys a ++ (keys b).filter (fun g => decide (g ∉ keys a)) := by
  induction b generalizing a with
  | nil => simp [mergeTables_nil]
  | cons p b ih =>
    have hp : p.1 ∉ keys b := (List.nodup_cons.mp hb).1
    have hb' : NodupKeys b := (List.nodup_cons.mp hb).2
    rw [mergeTables_cons, ih _ hb', keys_addGroup]
    by_cases hmem : p.1 ∈ keys a
    · rw [if_pos hmem]
      simp [List.filter_cons, hmem]
    · rw [if_neg hmem]
      have hcongr :
          (keys b).filter (fun g => decide (g ∉ keys a ++ [p.1])) =
            (keys b).filter (fun g => decide (g ∉ keys a)) := by
        apply List.filter_congr
        intro g hg
        have hgp : g ≠ p.1 := fun h => hp (h ▸ hg)
        simp [List.mem_append, hgp]
      rw [hcongr]
      simp [List.filter_cons, hmem, List.append_assoc]

theorem nodupKeys_foldl_lineStep {t : HelpTable} (ls : List Str)
    (h : NodupKeys t) : NodupKeys (ls.foldl lineStep t) := by
  induction ls generalizing t with
  | nil => exact h
  | cons l ls ih =>
    refine ih ?_
    unfold lineStep
    cases parseLine l with
    | none => exact h
    | some gcd => exact nodupKeys_addGroup _ _ h

theorem nodupKeys_parseLines (ls : List Str) : NodupKeys (parseLines ls) :=
  nodupKeys_foldl_lineStep ls List.nodup_nil

theorem entsOf_foldl_lineStep {t : HelpTable} (ls : List Str)
    (h : NodupKeys t) (g : Str) :
    entsOf (ls.foldl lineStep t) g =
      entsOf t g ++ ls.filterMap (pickEntry g) := by
  induction ls generalizing t with
  | nil => simp
  | cons l ls ih =>
    rw [List.foldl_cons, List.filterMap_cons]
    cases hl : parseLine l with
    | none =>
      have hstep : lineStep t l = t := by simp [lineStep, hl]
      have hpick : pickEntry g l = none := by simp [pickEntry, hl]
      rw [hstep, hpick, ih h]
    | some gcd =>
      obtain ⟨g', c, d⟩ := gcd
      have hstep : lineStep t l = addGroup t g' [(c, d)] := by
        simp [lineStep, hl]
      rw [hstep, ih (nodupKeys_addGroup g' [(c, d)] h),
        entsOf_addGroup g' [(c, d)] h g]
      by_cases hg : g' = g
      · have hpick : pickEntry g l = some (c, d) := by
          simp [pickEntry, hl, hg]
        rw [hpick, if_pos hg, List.append_assoc]
        simp
      · have hpick : pickEntry g l = none := by
          simp [pickEntry, hl, hg]
        rw [hpick, if_neg hg, List.append_nil]

theorem entsOf_parseLines (ls : List Str) (g : Str) :
    entsOf (parseLines ls) g = ls.filterMap (pickEntry g) := by
  simpa using entsOf_foldl_lineStep (t := []) ls List.nodup_nil g

theorem entsOf_parse_makefile (n : Str) (i : FileInput) (g : Str) :
    entsOf (parse_makefile n i).1 g = (linesRead i).filterMap (pickEntry g) := by
  cases i with
  | notFound => rfl
  | content lines readErr => exact entsOf_parseLines lines g

theorem parse_makefile_fst (n : Str) (i : FileInput) :
    (parse_makefile n i).1 = parseLines (linesRead i) := by
  cases i <;> rfl

theorem nodupKeys_parse_makefile (n : Str) (i : FileInput) :
    NodupKeys (parse_makefile n i).1 := by
  rw [parse_makefile_fst]
  exact nodupKeys_parseLines _

/-- Two tables with the same (duplicate-free) key sequence and the same
entries under every key are equal. -/
theorem table_ext {a : HelpTable} (ha : NodupKeys a) :
    ∀ {b : HelpTable}, keys a = keys b → (∀ g, entsOf a g = entsOf b g) →
      a = b := by
  induction a with
  | nil =>
    intro b hk _
    cases b with
    | nil => rfl
    | cons q b => simp at hk
  | cons p a ih =>
    intro b hk he
    cases b with
    | nil => simp at hk
    | cons q b =>
      simp only [keys_cons, List.cons.injEq] at hk
      have hp : p.1 ∉ keys a := (List.nodup_cons.mp ha).1
      have ha' : NodupKeys a := (List.nodup_cons.mp ha).2
      have hq : q.1 ∉ keys b := by
        rw [← hk.1, ← hk.2]; exact hp
      have hval : p.2 = q.2 := by
        have h1 := he p.1
        rw [entsOf_cons, entsOf_cons, if_pos rfl, if_pos hk.1.symm,
          entsOf_eq_nil hp, entsOf_eq_nil (hk.1 ▸ hq)] at h1
        simpa using h1
      have htail : a = b := by
        refine ih ha' hk.2 (fun g => ?_)
        by_cases hg : g = p.1
        · subst hg
          rw [entsOf_eq_nil hp, entsOf_eq_nil (hk.1 ▸ hq)]
        · have h1 := he g
          rw [entsOf_cons, entsOf_cons,
            if_neg (fun h => hg h.symm),
            if_neg (fun h => hg (hk.1 ▸ h).symm)] at h1
          simpa using h1
      have hfst : p = q := Prod.ext hk.1 hval
      rw [hfst, htail]

/-- The loop body of `create_help`: merge one file's parsed table into the
accumulator. -/
def chF (acc : HelpTable) (f : MFile) : HelpTable :=
  mergeTables acc (parse_makefile f.1 f.2).1

theorem create_help_eq_foldl (files : List MFile) :
    create_help files = files.foldl chF [] := rfl

theorem nodupKeys_foldl_chF {t : HelpTable} (fs : List MFile)
    (h : NodupKeys t) : NodupKeys (fs.foldl chF t) := by
  induction fs generalizing t with
  | nil => exact h
  | cons f fs ih => exact ih (nodupKeys_mergeTables _ h)

theorem nodupKeys_create_help (fs : List MFile) :
    NodupKeys (create_help fs) :=
  nodupKeys_foldl_chF fs List.nodup_nil

theorem nodupKeys_nil_table : NodupKeys ([] : HelpTable) := List.nodup_nil

theorem nodupKeys_chF {t : HelpTable} (f : MFile) (h : NodupKeys t) :
    NodupKeys (chF t f) := nodupKeys_mergeTables _ h

theorem entsOf_chF {t : HelpTable} (f : MFile) (h : NodupKeys t) (g : Str) :
    entsOf (chF t f) g = entsOf t g ++ entsOf (parse_makefile f.1 f.2).1 g :=
  entsOf_mergeTables _ h g

theorem keys_chF (t : HelpTable) (f : MFile) :
    keys (chF t f) =
      keys t ++ (keys (parse_makefile f.1 f.2).1).filter
        (fun g => decide (g ∉ keys t)) :=
  keys_mergeTables t (nodupKeys_parse_makefile f.1 f.2)

theorem entsOf_foldl_chF {t : HelpTable} (fs : List MFile)
    (h : NodupKeys t) (g : Str) :
    entsOf (fs.foldl chF t) g = entsOf t g ++ entsOf (create_help fs) g := by
  induction fs generalizing t with
  | nil => simp [create_help]
  | cons f fs ih =>
    have hch : entsOf (create_help (f :: fs)) g =
        entsOf (parse_makefile f.1 f.2).1 g ++ entsOf (create_help fs) g := by
      rw [create_help_eq_foldl, List.foldl_cons,
        ih (nodupKeys_chF f nodupKeys_nil_table),
        entsOf_chF f nodupKeys_nil_table]
      rw [create_help_eq_foldl]
      simp
    rw [List.foldl_cons, ih (nodupKeys_chF f h), hch, entsOf_chF f h,
      List.append_assoc]

theorem entsOf_create_help_cons (f : MFile) (fs : List MFile) (g : Str) :
    entsOf (create_help (f :: fs)) g =
      entsOf (parse_makefile f.1 f.2).1 g ++ entsOf (create_help fs) g := by
  rw [create_help_eq_foldl, List.foldl_cons,
    entsOf_foldl_chF fs (nodupKeys_chF f nodupKeys_nil_table),
    entsOf_chF f nodupKeys_nil_table]
  simp

theorem keys_foldl_chF {t : HelpTable} (fs : List MFile) :
    keys (fs.foldl chF t) =
      keys t ++ (keys (create_help fs)).filter (fun g => decide (g ∉ keys t)) := by
  induction fs generalizing t with
  | nil => simp [create_help]
  | cons f fs ih =>
    have hkch : keys (create_help (f :: fs)) =
        keys (parse_makefile f.1 f.2).1 ++
          (keys (create_help fs)).filter
            (fun g => decide (g ∉ keys (parse_makefile f.1 f.2).1)) := by
      rw [create_help_eq_foldl, List.foldl_cons, ih (t := chF [] f),
        keys_chF]
      simp [create_help_eq_foldl]
    rw [List.foldl_cons, ih (t := chF t f), hkch, keys_chF,
      List.filter_append, List.filter_filter, List.append_assoc]
    congr 1
    congr 1
    apply List.filter_congr
    intro g _
    by_cases h1 : g ∈ keys t <;> by_cases h2 : g ∈ keys (parse_makefile f.1 f.2).1 <;>
      simp [h1, h2, List.mem_append, List.mem_filter]

/-- Every value list bound in the table is non-empty. -/
def ValsNonempty (t : HelpTable) : Prop := ∀ p ∈ t, p.2 ≠ []

theorem valsNonempty_addGroup {t : HelpTable} (g : Str) {es : List Entry}
    (h : ValsNonempty t) (hes : es ≠ []) : ValsNonempty (addGroup t g es) := by
  induction t with
  | nil =>
    intro p hp
    simp only [addGroup, List.mem_singleton] at hp
    rw [hp]
    exact hes
  | cons q t ih =>
    have h' : ValsNonempty t := fun p hp => h p (List.mem_cons_of_mem _ hp)
    intro p hp
    by_cases hqg : q.1 = g
    · rw [show addGroup (q :: t) g es = (q.1, q.2 ++ es) :: t by
        simp [addGroup, hqg]] at hp
      rcases List.mem_cons.mp hp with h1 | h2
      · rw [h1]
        intro hcon
        exact hes (List.append_eq_nil.mp hcon).2
      · exact h p (List.mem_cons_of_mem _ h2)
    · rw [show addGroup (q :: t) g es = q :: addGroup t g es by
        simp [addGroup, hqg]] at hp
      rcases List.mem_cons.mp hp with h1 | h2
      · rw [h1]
        exact h q (List.mem_cons_self _ _)
      · exact ih h' p h2

theorem valsNonempty_lineStep {t : HelpTable} (line : Str)
    (h : ValsNonempty t) : ValsNonempty (lineStep t line) := by
  unfold lineStep
  cases parseLine line with
  | none => exact h
  | some gcd => exact valsNonempty_addGroup _ h (by simp)

theorem valsNonempty_parseLines (ls : List Str) :
    ValsNonempty (parseLines ls) := by
  have key : ∀ (ls : List Str) (t : HelpTable), ValsNonempty t →
      ValsNonempty (ls.foldl lineStep t) := by
    intro ls
    induction ls with
    | nil => exact fun t h => h
    | cons l ls ih => exact fun t h => ih _ (valsNonempty_lineStep l h)
  exact key ls [] (by intro p hp; cases hp)

theorem valsNonempty_parse_makefile (n : Str) (i : FileInput) :
    ValsNonempty (parse_makefile n i).1 := by
  rw [parse_makefile_fst]
  exact valsNonempty_parseLines _

theorem valsNonempty_mergeTables {a b : HelpTable}
    (ha : ValsNonempty a) (hb : ValsNonempty b) :
    ValsNonempty (mergeTables a b) := by
  induction b generalizing a with
  | nil => exact ha
  | cons p b ih =>
    rw [mergeTables_cons]
    exact ih
      (valsNonempty_addGroup _ ha (hb p (List.mem_cons_self _ _)))
      (fun q hq => hb q (List.mem_cons_of_mem _ hq))

theorem valsNonempty_create_help (fs : List MFile) :
    ValsNonempty (create_help fs) := by
  have key : ∀ (fs : List MFile) (t : HelpTable), ValsNonempty t →
      ValsNonempty (fs.foldl chF t) := by
    intro fs
    induction fs with
    | nil => exact fun t h => h
    | cons f fs ih =>
      exact fun t h =>
        ih _ (valsNonempty_mergeTables h (valsNonempty_parse_makefile f.1 f.2))
  exact key fs [] (by intro p hp; cases hp)

theorem entsOf_ne_nil_of_mem_keys {t : HelpTable} (h : ValsNonempty t)
    {g : Str} (hg : g ∈ keys t) : entsOf t g ≠ [] := by
  induction t with
  | nil => cases hg
  | cons p t ih =>
    rw [entsOf_cons]
    rcases List.mem_cons.mp hg with h1 | h2
    · rw [if_pos h1.symm]
      intro hcon
      exact h p (List.mem_cons_self _ _) (List.append_eq_nil.mp hcon).1
    · intro hcon
      exact ih (fun q hq => h q (List.mem_cons_of_mem _ hq)) h2
        (List.append_eq_nil.mp hcon).2

theorem pickEntry_inv {g line : Str} {e : Entry}
    (h : pickEntry g line = some e) : parseLine line = some (g, e.1, e.2) := by
  unfold pickEntry at h
  cases hl : parseLine line with
  | none => rw [hl] at h; cases h
  | some gcd =>
    obtain ⟨g', c, d⟩ := gcd
    rw [hl] at h
    have h' : (if g' = g then some ((c, d) : Entry) else none) = some e := h
    by_cases hg : g' = g
    · rw [if_pos hg] at h'
      obtain ⟨e1, e2⟩ := e
      have he := Option.some.inj h'
      have hc : c = e1 := congrArg Prod.fst he
      have hd : d = e2 := congrArg Prod.snd he
      rw [hg, hc, hd]
    · rw [if_neg hg] at h'
      cases h'

theorem parseLine_inv {line g c d : Str}
    (h : parseLine line = some (g, c, d)) :
    hasMarker (pyStrip line) = true ∧
      ∃ x y z, splitMax2 (pyLstrip (pyStrip line)) = [x, y, z] ∧
        g = pyStrip x ∧ c = pyStrip y ∧ d = pyStrip z := by
  unfold parseLine at h
  by_cases hm : hasMarker (pyStrip line) = true
  · refine ⟨hm, ?_⟩
    rw [if_pos hm] at h
    rcases hsp : splitMax2 (pyLstrip (pyStrip line)) with _ | ⟨x, _ | ⟨y, _ | ⟨z, rest⟩⟩⟩ <;>
      rw [hsp] at h
    · cases h
    · cases h
    · cases h
    · cases rest with
      | nil =>
        have h3 : (pyStrip x, pyStrip y, pyStrip z) = (g, c, d) :=
          Option.some.inj h
        refine ⟨x, y, z, rfl, ?_, ?_, ?_⟩
        · exact (congrArg (fun p => p.1) h3).symm
        · exact (congrArg (fun p => p.2.1) h3).symm
        · exact (congrArg (fun p => p.2.2) h3).symm
      | cons w rest => cases h
  · rw [if_neg hm] at h
    cases h

theorem splitFirst_no_colon {s : Str} (h : ':' ∉ s) : splitFirst s = none := by
  induction s with
  | nil => rfl
  | cons c cs ih =>
    have hc : ¬ c = ':' := fun h' => h (h' ▸ List.mem_cons_self c cs)
    have hcs : ':' ∉ cs := fun h' => h (List.mem_cons_of_mem _ h')
    simp [splitFirst, hc, ih hcs]

theorem splitFirst_append {a : Str} (r : Str) (h : ':' ∉ a) :
    splitFirst (a ++ ':' :: r) = some (a, r) := by
  induction a with
  | nil => simp [splitFirst]
  | cons c a ih =>
    have hc : ¬ c = ':' := fun h' => h (h' ▸ List.mem_cons_self c a)
    have ha : ':' ∉ a := fun h' => h (List.mem_cons_of_mem _ h')
    simp [splitFirst, hc, ih ha]

theorem splitMax2_three {a b : Str} (d : Str) (ha : ':' ∉ a) (hb : ':' ∉ b) :
    splitMax2 (a ++ ':' :: (b ++ ':' :: d)) = [a, b, d] := by
  unfold splitMax2
  simp only [splitFirst_append _ ha, splitFirst_append _ hb]

/-- Python string comparison: lexicographic by character code point. -/
def strLe : Str → Str → Bool
  | [], _ => true
  | _ :: _, [] => false
  | a :: as, b :: bs =>
    if a < b then true else if b < a then false else strLe as bs

theorem strLe_total (a b : Str) : strLe a b = true ∨ strLe b a = true := by
  induction a generalizing b with
  | nil => left; rfl
  | cons x xs ih =>
    cases b with
    | nil => right; rfl
    | cons y ys =>
      rcases lt_trichotomy x y with h | h | h
      · left; simp [strLe, h]
      · subst h
        rcases ih ys with h' | h'
        · left; simp [strLe, lt_irrefl, h']
        · right; simp [strLe, lt_irrefl, h']
      · right; simp [strLe, h]

theorem strLe_antisymm {a b : Str} (h1 : strLe a b = true)
    (h2 : strLe b a = true) : a = b := by
  induction a generalizing b with
  | nil =>
    cases b with
    | nil => rfl
    | cons y ys => simp [strLe] at h2
  | cons x xs ih =>
    cases b with
    | nil => simp [strLe] at h1
    | cons y ys =>
      rcases lt_trichotomy x y with h | h | h
      · simp [strLe, h, lt_asymm h] at h2
      · subst h
        simp only [strLe, lt_irrefl, if_false] at h1 h2
        rw [ih h1 h2]
      · simp [strLe, h, lt_asymm h] at h1

theorem strLe_trans {a b c : Str} (h1 : strLe a b = true)
    (h2 : strLe b c = true) : strLe a c = true := by
  induction a generalizing b c with
  | nil => rfl
  | cons x xs ih =>
    cases b with
    | nil => simp [strLe] at h1
    | cons y ys =>
      cases c with
      | nil => simp [strLe] at h2
      | cons z zs =>
        rcases lt_trichotomy x y with hxy | hxy | hxy
        · rcases lt_trichotomy y z with hyz | hyz | hyz
          · simp [strLe, lt_trans hxy hyz]
          · subst hyz; simp [strLe, hxy]
          · simp [strLe, hyz, lt_asymm hyz] at h2
        · subst hxy
          rcases lt_trichotomy x z with hxz | hxz | hxz
          · simp [strLe, hxz]
          · subst hxz
            simp only [strLe, lt_irrefl, if_false] at h1 h2 ⊢
            exact ih h1 h2
          · simp [strLe, hxz, lt_asymm hxz] at h2
        · simp [strLe, hxy, lt_asymm hxy] at h1

/-- The comparison `sorted(help_dict.items())` effectively performs: dict
keys are unique, so Python's tuple comparison is decided by the group
name. -/
def groupLe (p q : Str × List Entry) : Bool := strLe p.1 q.1

/-- The comparison `sorted(targets)` performs: Python tuple comparison of
`(command, description)` pairs, lexicographic. -/
def entryLe (p q : Entry) : Bool :=
  if p.1 = q.1 then strLe p.2 q.2 else strLe p.1 q.1

theorem groupLe_trans (a b c : Str × List Entry) (h1 : groupLe a b = true)
    (h2 : groupLe b c = true) : groupLe a c = true :=
  strLe_trans h1 h2

theorem groupLe_total (a b : Str × List Entry) :
    (groupLe a b || groupLe b a) = true := by
  rcases strLe_total a.1 b.1 with h | h <;> simp [groupLe, h]

theorem entryLe_trans (a b c : Entry) (h1 : entryLe a b = true)
    (h2 : entryLe b c = true) : entryLe a c = true := by
  unfold entryLe at *
  by_cases hab : a.1 = b.1 <;> by_cases hbc : b.1 = c.1
  · have hac : a.1 = c.1 := hab.trans hbc
    rw [if_pos hab] at h1
    rw [if_pos hbc] at h2
    rw [if_pos hac]
    exact strLe_trans h1 h2
  · have hac : ¬ a.1 = c.1 := fun h => hbc (hab.symm.trans h)
    rw [if_neg hbc] at h2
    rw [if_neg hac, hab]
    exact h2
  · have hac : ¬ a.1 = c.1 := fun h => hab (h.trans hbc.symm)
    rw [if_neg hab] at h1
    rw [if_neg hac, ← hbc]
    exact h1
  · by_cases hac : a.1 = c.1
    · exfalso
      rw [if_neg hab] at h1
      rw [if_neg hbc, ← hac] at h2
      exact hab (strLe_antisymm h1 h2)
    · rw [if_neg hab] at h1
      rw [if_neg hbc] at h2
      rw [if_neg hac]
      exact strLe_trans h1 h2

theorem entryLe_total (a b : Entry) : (entryLe a b || entryLe b a) = true := by
  unfold entryLe
  by_cases hab : a.1 = b.1
  · rw [if_pos hab, if_pos hab.symm]
    rcases strLe_total a.2 b.2 with h | h <;> simp [h]
  · rw [if_neg hab, if_neg (fun h => hab h.symm)]
    rcases strLe_total a.1 b.1 with h | h <;> simp [h]

/-- The message printed for an empty table. -/
def noInfoMsg : Str := "No help information found in the specified Makefiles.".data

/-- `Colors.YELLOW = "\033[33m"`. -/
def yellowCode : Str := "\x1b[33m".data

/-- `Colors.BLUE = "\033[34m"`. -/
def blueCode : Str := "\x1b[34m".data

/-- `Colors.RESET = "\033[0m"`. -/
def resetCode : Str := "\x1b[0m".data

/-- Python format spec `: <32` : left-justify to a minimum width of 32
characters (strings already that long are unchanged; `Nat` subtraction
matches that). -/
def padTo32 (s : Str) : Str := s ++ List.replicate (32 - s.length) ' '

/-- The group header output line. -/
def headerLine (g : Str) : Str :=
  "    ".data ++ yellowCode ++ "[".data ++ g ++ "]".data ++ resetCode

/-- The per-entry output line. -/
def entryLine (e : Entry) : Str :=
  "    ".data ++ padTo32 e.1 ++ blueCode ++ "# ".data ++ e.2 ++ resetCode

/-- `print_help(help_dict)`: the list of lines printed.  An empty dict is
falsy, so prints the informational message only; otherwise the items are
iterated in `sorted` order, each group's targets in `sorted` order, and a
bare `print()` emits a blank line after each group. -/
def print_help (t : HelpTable) : List Str :=
  if t = [] then [noInfoMsg]
  else (t.mergeSort groupLe).foldl
    (fun out p =>
      out ++ (headerLine p.1 :: (p.2.mergeSort entryLe).map entryLine ++ [[]]))
    []

/-- The entry list sorted the way `print_help` sorts it. -/
def sortEnts (es : List Entry) : List Entry := es.mergeSort entryLe

/-- The table sorted the way `print_help` iterates it: groups sorted, and
each group's entries sorted. -/
def sortTable (t : HelpTable) : HelpTable :=
  (t.mergeSort groupLe).map (fun p => (p.1, sortEnts p.2))

/-- The output block of one group: a header, the entry lines, a blank
separator line. -/
def renderGroup (g : Str) (es : List Entry) : List Str :=
  headerLine g :: es.map entryLine ++ [[]]

/-- Rendering a table in its own order. -/
def renderTable (t : HelpTable) : List Str :=
  t.foldl (fun out p => out ++ renderGroup p.1 p.2) []

theorem print_help_eq_renderTable (t : HelpTable) (h : ¬ t = []) :
    print_help t = renderTable (sortTable t) := by
  unfold print_help renderTable sortTable renderGroup sortEnts
  rw [if_neg h, List.foldl_map]

theorem mem_entsOf_create_help {fs : List MFile} {g : Str} {c d : Str}
    (h : (c, d) ∈ entsOf (create_help fs) g) :
    ∃ f ∈ fs, ∃ line ∈ linesRead f.2, parseLine line = some (g, c, d) := by
  induction fs with
  | nil => simp [create_help] at h
  | cons f fs ih =>
    rw [entsOf_create_help_cons] at h
    rcases List.mem_append.mp h with h1 | h2
    · rw [entsOf_parse_makefile] at h1
      obtain ⟨line, hline, hpick⟩ := List.mem_filterMap.mp h1
      exact ⟨f, List.mem_cons_self _ _, line, hline, pickEntry_inv hpick⟩
    · obtain ⟨f', hf', rest⟩ := ih h2
      exact ⟨f', List.mem_cons_of_mem _ hf', rest⟩

theorem length_filterMap_pickEntry (g : Str) (ls : List Str) :
    (ls.filterMap (pickEntry g)).length =
      (ls.filter (fun line => (pickEntry g line).isSome)).length := by
  induction ls with
  | nil => rfl
  | cons l ls ih =>
    cases hl : pickEntry g l <;>
      simp [List.filterMap_cons, List.filter_cons, hl, ih]

theorem entsOf_create_help (fs : List MFile) (g : Str) :
    entsOf (create_help fs) g =
      (fs.map (fun f => (linesRead f.2).filterMap (pickEntry g))).flatten := by
  induction fs with
  | nil => simp [create_help]
  | cons f fs ih =>
    rw [entsOf_create_help_cons, entsOf_parse_makefile, List.map_cons,
      List.flatten_cons, ih]

/-- C1: For a line that after trimming starts with `"## "` but does not
split into exactly three colon-delimited parts, the code produces no entry
and continues with the next line, but — contrary to the claim — emits NO
diagnostic: the diagnostics list of `parse_makefile` stays empty, because
the `len(data) != 3` test `continue`s silently and the `except ValueError`
branch holding the warning message is unreachable. -/
theorem C1_malformed_line_silently_skipped :
    parse_makefile "Makefile".data
      (.content ["## onlytwo:fields".data, "## a:b:c".data] none) =
      ([("a".data, [("b".data, "c".data)])], []) := by decide

/-- C2: On the line `"## #extra:cmd:desc"` the code produces the group
`"extra"`, not `"#extra"` as the claim requires: `lstrip("## ")` removes
every leading `'#'` and `' '` character, not merely the three-character
marker. -/
theorem C2_lstrip_removes_extra_leading_chars :
    parse_makefile "Makefile".data
      (.content ["## #extra:cmd:desc".data] none) =
      ([("extra".data, [("cmd".data, "desc".data)])], []) := by decide

/-- C3 counterexample: the line `"## ::"` is marked and splits into three
parts that are all empty after trimming, and the code happily adds the
entry — the table maps the empty group name to the entry with empty
command and empty description, contradicting the claimed non-emptiness
invariant. -/
theorem C3_counterexample :
    (parse_makefile "Makefile".data (.content ["## ::".data] none)).1 =
      [([], [([], [])])] ∧
    ([], []) ∈
      entsOf (parse_makefile "Makefile".data (.content ["## ::".data] none)).1
        [] := by
  exact ⟨by decide, by decide⟩

/-- C3 (amended): every entry in a table produced by `create_help` or
`parse_makefile` originated from a line that, after whitespace trimming,
begins with the marker and whose `lstrip`ped body splits into exactly
three colon-delimited fields; group, command and description are those
fields whitespace-trimmed — but the fields are NOT necessarily non-empty. -/
theorem C3_entry_provenance (fs : List MFile) (n : Str) (i : FileInput)
    (g c d : Str) :
    ((c, d) ∈ entsOf (create_help fs) g →
      ∃ f ∈ fs, ∃ line ∈ linesRead f.2, parseLine line = some (g, c, d)) ∧
    ((c, d) ∈ entsOf (parse_makefile n i).1 g →
      ∃ line ∈ linesRead i, parseLine line = some (g, c, d)) ∧
    (∀ line : Str, parseLine line = some (g, c, d) →
      hasMarker (pyStrip line) = true ∧
        ∃ x y z, splitMax2 (pyLstrip (pyStrip line)) = [x, y, z] ∧
          g = pyStrip x ∧ c = pyStrip y ∧ d = pyStrip z) := by
  refine ⟨mem_entsOf_create_help, ?_, fun line h => parseLine_inv h⟩
  intro h
  rw [entsOf_parse_makefile] at h
  obtain ⟨line, hline, hpick⟩ := List.mem_filterMap.mp h
  exact ⟨line, hline, pickEntry_inv hpick⟩

/-- Witness for C3's amended theorem at a concrete file list. -/
theorem C3_entry_provenance_witness :
    ∃ f ∈ ([(("m".data : Str), FileInput.content ["## g:c:d".data] none)] :
        List MFile),
      ∃ line ∈ linesRead f.2,
        parseLine line = some ("g".data, "c".data, "d".data) :=
  (C3_entry_provenance [("m".data, .content ["## g:c:d".data] none)]
      [] .notFound "g".data "c".data "d".data).1 (by decide)

/-- C4: a marked line whose body (after `lstrip("## ")`) has the shape
`a ++ ":" ++ b ++ ":" ++ d` with `a` and `b` colon-free yields exactly one
entry, whose fields are the three parts whitespace-trimmed, in order; the
split stops after the first two colons, so any colons inside `d` are
preserved verbatim in the description. -/
theorem C4_three_field_split (line a b d : Str)
    (hm : hasMarker (pyStrip line) = true)
    (hbody : pyLstrip (pyStrip line) = a ++ ':' :: (b ++ ':' :: d))
    (ha : ':' ∉ a) (hb : ':' ∉ b) :
    parseLine line = some (pyStrip a, pyStrip b, pyStrip d) ∧
    parseLines [line] = [(pyStrip a, [(pyStrip b, pyStrip d)])] := by
  have hp : parseLine line = some (pyStrip a, pyStrip b, pyStrip d) := by
    unfold parseLine
    rw [if_pos hm, hbody, splitMax2_three d ha hb]
  exact ⟨hp, by simp [parseLines, lineStep, hp, addGroup]⟩

/-- Witness for C4 on the spec's Scenario 2 line. -/
theorem C4_three_field_split_witness :
    parseLine "## test:run: runs tests: with coverage".data =
      some ("test".data, "run".data, "runs tests: with coverage".data) :=
  ((C4_three_field_split "## test:run: runs tests: with coverage".data
      "test".data "run".data " runs tests: with coverage".data
      (by decide) (by decide) (by decide) (by decide)).1).trans (by decide)

/-- C5 counterexample: a read error raised after the line `"## a:b:c"`
was already parsed does NOT yield an empty partial table — the entry
parsed before the error is returned, because `result` is initialised
before the `try` block and returned after the exception handlers. -/
theorem C5_counterexample :
    (parse_makefile "f".data
        (.content ["## a:b:c".data] (some "boom".data))).1 ≠ [] ∧
    parse_makefile "f".data (.content ["## a:b:c".data] (some "boom".data)) =
      ([("a".data, [("b".data, "c".data)])],
        [processErrMsg "f".data "boom".data]) := by
  exact ⟨by decide, by decide⟩

/-- C5 (amended): a file whose open fails contributes an empty table and
one diagnostic naming the file; a read error mid-file contributes one
diagnostic and the entries parsed from the lines read before the error
(not an empty table); a failed file does not abort the run — `create_help`
of the remaining files is unaffected. -/
theorem C5_read_errors (file e : Str) (lines : List Str) (fs : List MFile) :
    parse_makefile file .notFound = ([], [notFoundMsg file]) ∧
    parse_makefile file (.content lines (some e)) =
      (parseLines lines, [processErrMsg file e]) ∧
    create_help ((file, FileInput.notFound) :: fs) = create_help fs :=
  ⟨rfl, rfl, rfl⟩

/-- C6: aggregation is concatenation — `create_help (A ++ B)` is the
per-group merge of `create_help A` and `create_help B`; the key order of
the result is A's keys followed by B's new keys in first-seen order, and
under every group the entry list is A's entries followed by B's. -/
theorem C6_aggregation_is_concatenation (A B : List MFile) :
    create_help (A ++ B) = mergeTables (create_help A) (create_help B) ∧
    keys (create_help (A ++ B)) =
      keys (create_help A) ++
        (keys (create_help B)).filter
          (fun g => decide (g ∉ keys (create_help A))) ∧
    ∀ g, entsOf (create_help (A ++ B)) g =
      entsOf (create_help A) g ++ entsOf (create_help B) g := by
  have hfold : create_help (A ++ B) = B.foldl chF (create_help A) := by
    rw [create_help_eq_foldl, create_help_eq_foldl, List.foldl_append]
  have hkeys : keys (create_help (A ++ B)) =
      keys (create_help A) ++
        (keys (create_help B)).filter
          (fun g => decide (g ∉ keys (create_help A))) := by
    rw [hfold, keys_foldl_chF]
  have hents : ∀ g, entsOf (create_help (A ++ B)) g =
      entsOf (create_help A) g ++ entsOf (create_help B) g := by
    intro g
    rw [hfold, entsOf_foldl_chF B (nodupKeys_create_help A) g]
  refine ⟨?_, hkeys, hents⟩
  refine table_ext (nodupKeys_create_help (A ++ B)) ?_ ?_
  · rw [hkeys, keys_mergeTables _ (nodupKeys_create_help B)]
  · intro g
    rw [hents g, entsOf_mergeTables _ (nodupKeys_create_help A) g]

/-- C7: on the empty table the renderer prints exactly the informational
message; on a non-empty table it renders the table sorted — the group
sequence is a permutation of the original keys in `strLe`-sorted order,
each group's entry list is an `entryLe`-sorted permutation of that group's
original entries, and each group's block ends with a blank separator line
(the shape of `renderGroup`). -/
theorem C7_renderer (t : HelpTable) :
    (t = [] → print_help t = [noInfoMsg]) ∧
    (t ≠ [] →
      print_help t = renderTable (sortTable t) ∧
      (keys (sortTable t)).Pairwise (fun g1 g2 => strLe g1 g2 = true) ∧
      (keys (sortTable t)).Perm (keys t) ∧
      ∀ p ∈ sortTable t,
        p.2.Pairwise (fun e1 e2 => entryLe e1 e2 = true) ∧
        ∃ q ∈ t, p.1 = q.1 ∧ p.2.Perm q.2) := by
  constructor
  · intro h
    rw [h]
    rfl
  · intro h
    refine ⟨print_help_eq_renderTable t h, ?_, ?_, ?_⟩
    · unfold sortTable keys
      rw [List.map_map, List.pairwise_map]
      exact List.sorted_mergeSort groupLe_trans groupLe_total t
    · unfold sortTable keys
      rw [List.map_map]
      exact (List.mergeSort_perm t groupLe).map _
    · intro p hp
      unfold sortTable at hp
      obtain ⟨q, hq, hpq⟩ := List.mem_map.mp hp
      refine ⟨?_, q, (List.mergeSort_perm t groupLe).subset hq, ?_, ?_⟩
      · rw [← hpq]
        exact List.sorted_mergeSort entryLe_trans entryLe_total q.2
      · rw [← hpq]
      · rw [← hpq]
        exact List.mergeSort_perm q.2 entryLe

/-- Witness for C7 at the empty table and at a concrete singleton table. -/
theorem C7_renderer_witness :
    print_help [] = [noInfoMsg] ∧
    print_help [(("b".data : Str), [(("x".data : Str), ("y".data : Str))])] =
      renderTable
        (sortTable [(("b".data : Str), [(("x".data : Str), ("y".data : Str))])]) :=
  ⟨(C7_renderer []).1 rfl,
    ((C7_renderer [("b".data, [("x".data, "y".data)])]).2 (by decide)).1⟩

/-- C8: no deduplication — the entry list under a group in the aggregated
table is exactly the concatenation, file by file and line by line, of the
entries contributed to that group, so its length equals the total number
of well-formed marked lines naming that group across the lines actually
read from the input files. -/
theorem C8_no_deduplication (fs : List MFile) (g : Str) :
    entsOf (create_help fs) g =
      (fs.map (fun f => (linesRead f.2).filterMap (pickEntry g))).flatten ∧
    (entsOf (create_help fs) g).length =
      (fs.map (fun f =>
        ((linesRead f.2).filter
          (fun line => (pickEntry g line).isSome)).length)).sum := by
  refine ⟨entsOf_create_help fs g, ?_⟩
  rw [entsOf_create_help fs g, List.length_flatten, List.map_map]
  refine congrArg List.sum (List.map_congr_left ?_)
  intro f _
  exact length_filterMap_pickEntry g (linesRead f.2)

/-- C9: `create_help` is a pure function of the file contents alone: two
file lists whose observed file behaviours coincide componentwise (even
with different path names) produce identical tables; in particular
re-running on the same list reproduces the table exactly. -/
theorem C9_deterministic {fs1 fs2 : List MFile}
    (h : fs1.map Prod.snd = fs2.map Prod.snd) :
    create_help fs1 = create_help fs2 := by
  have key : ∀ (l1 l2 : List MFile) (t : HelpTable),
      l1.map Prod.snd = l2.map Prod.snd → l1.foldl chF t = l2.foldl chF t := by
    intro l1
    induction l1 with
    | nil =>
      intro l2 t h
      cases l2 with
      | nil => rfl
      | cons f l2 => simp at h
    | cons f l1 ih =>
      intro l2 t h
      cases l2 with
      | nil => simp at h
      | cons f' l2 =>
        simp only [List.map_cons, List.cons.injEq] at h
        rw [List.foldl_cons, List.foldl_cons]
        have hstep : chF t f = chF t f' := by
          unfold chF
          rw [parse_makefile_fst, parse_makefile_fst, h.1]
        rw [hstep]
        exact ih l2 _ h.2
  rw [create_help_eq_foldl, create_help_eq_foldl]
  exact key fs1 fs2 [] h

/-- Witness for C9: same content under different file names. -/
theorem C9_deterministic_witness :
    create_help [(("x".data : Str), FileInput.content ["## a:b:c".data] none)] =
      create_help [(("y".data : Str), FileInput.content ["## a:b:c".data] none)] :=
  C9_deterministic (by decide)

/-- C10: in every table returned by `parse_makefile` or `create_help`,
every bound group maps to a non-empty entry list, and a group key is
present exactly when at least one entry is recorded for it. -/
theorem C10_no_empty_group (fs : List MFile) (n : Str) (i : FileInput) :
    (∀ p ∈ create_help fs, p.2 ≠ []) ∧
    (∀ g, g ∈ keys (create_help fs) ↔ entsOf (create_help fs) g ≠ []) ∧
    (∀ p ∈ (parse_makefile n i).1, p.2 ≠ []) ∧
    (∀ g, g ∈ keys (parse_makefile n i).1 ↔
      entsOf (parse_makefile n i).1 g ≠ []) := by
  refine ⟨valsNonempty_create_help fs,
    fun g => ⟨fun h => entsOf_ne_nil_of_mem_keys (valsNonempty_create_help fs) h,
      fun h => mem_keys_of_entsOf_ne_nil h⟩,
    valsNonempty_parse_makefile n i,
    fun g => ⟨fun h =>
      entsOf_ne_nil_of_mem_keys (valsNonempty_parse_makefile n i) h,
      fun h => mem_keys_of_entsOf_ne_nil h⟩⟩

/-- Witness for C10 at a concrete file list. -/
theorem C10_no_empty_group_witness :
    (("a".data : Str), [(("b".data : Str), ("c".data : Str))]) ∈
      create_help [(("m".data : Str), FileInput.content ["## a:b:c".data] none)] ∧
    ([(("b".data : Str), ("c".data : Str))] : List Entry) ≠ [] :=
  ⟨by decide,
    (C10_no_empty_group [("m".data, .content ["## a:b:c".data] none)]
      [] .notFound).1 ("a".data, [("b".data, "c".data)]) (by decide)⟩

end MakeHelp
